import Mathlib

/-!
Shallow embedding of the tic-tac-toe game engine in `src/src/main.rs`
(a terminal tic-tac-toe game: board model, win/draw evaluator, opponent
strategies, turn loop, session score), together with theorems settling the
specification claims about it.

Cells are `Char`s exactly as in the Rust source: a board is a `[char; 9]`,
empty cells initially hold the digits '1'..'9', and a cell is tested empty
by `c != 'X' && c != 'O'`.  Machine randomness (`rand::thread_rng` fed to
`IteratorRandom::choose`) is abstracted by a natural-number draw `k`; the
chosen element is the `k % n`-th of the `n` candidates, so the set of
possible outcomes is exactly the candidate list, and `none` models the
`Option::None` that makes the subsequent `.unwrap()` panic.  The human-input
loop is modelled by recursion over the list of pressed character keys;
`none` models a key stream that never supplies a valid move (the Rust loop
would keep waiting).  Rust's `u32` wrapping subtraction `(d - 1) as usize`
is modelled as `(d + 4294967295) % 4294967296`.
-/

/-- `PLAYER_X` constant from main.rs. -/
def PLAYER_X : Char := 'X'

/-- `PLAYER_O` constant from main.rs. -/
def PLAYER_O : Char := 'O'

/-- `EMPTY_CELLS` constant from main.rs: the fresh board at match start. -/
def EMPTY_CELLS : List Char := ['1', '2', '3', '4', '5', '6', '7', '8', '9']

/-- A board is the `[char; 9]` array of main.rs (as a list; all theorems
about whole boards carry the hypothesis `b.length = 9`). -/
abbrev Board := List Char

/-- `board[i]` for the in-bounds indices the source uses (every index the
program ever reads is < 9). -/
def cellAt (b : Board) (i : Nat) : Char := b.getD i ' '

/-- The emptiness test the source applies to a cell:
`c != PLAYER_X && c != PLAYER_O`. -/
def isFree (c : Char) : Bool := !(c == PLAYER_X) && !(c == PLAYER_O)

/-- Cell `i` of board `b` is empty (the test of `get_human_move`,
`get_ai_move_random` and `get_ai_move_blocking`). -/
def emptyCell (b : Board) (i : Nat) : Bool := isFree (cellAt b i)

/-- A line of the board: a `[usize; 3]` triple of cell indices. -/
abbrev Line := Nat × Nat × Nat

/-- The `wins` table, defined identically (same 8 lines, same order:
3 rows, 3 columns, 2 diagonals) in `check_winner` and
`get_ai_move_blocking`. -/
def wins : List Line :=
  [(0, 1, 2), (3, 4, 5), (6, 7, 8),
   (0, 3, 6), (1, 4, 7), (2, 5, 8),
   (0, 4, 8), (2, 4, 6)]

/-- The per-line test of `check_winner`:
`board[l0] == board[l1] && board[l1] == board[l2] && (board[l0] == 'X' || board[l0] == 'O')`. -/
def lineWin (b : Board) : Line → Bool
  | (i, j, k) =>
    (cellAt b i == cellAt b j) && (cellAt b j == cellAt b k) &&
      ((cellAt b i == PLAYER_X) || (cellAt b i == PLAYER_O))

/-- The `for &line in &wins` loop body of `check_winner`: return the first
line passing `lineWin`, paired with its first cell's mark. -/
def checkLines (b : Board) : List Line → Option (Char × Line)
  | [] => none
  | l :: ls => if lineWin b l then some (cellAt b l.1, l) else checkLines b ls

/-- `check_winner` from main.rs. -/
def check_winner (b : Board) : Option (Char × Line) := checkLines b wins

/-- `is_draw` from main.rs: every cell holds `'X'` or `'O'`. -/
def is_draw (b : Board) : Bool := b.all (fun c => c == PLAYER_X || c == PLAYER_O)

/-- `switch_player` from main.rs. -/
def switch_player (current : Char) : Char :=
  if current == PLAYER_X then PLAYER_O else PLAYER_X

/-- Terminal verdict vocabulary for the per-turn check sequence of `main`
(lines 78–94): win, draw, or keep playing. -/
inductive Verdict where
  | win : Char → Line → Verdict
  | draw : Verdict
  | ongoing : Verdict
deriving DecidableEq

/-- The post-move check sequence of `main`: first `check_winner`, then
`is_draw`, else the loop continues. -/
def evaluate (b : Board) : Verdict :=
  match check_winner b with
  | some (m, l) => Verdict.win m l
  | none => if is_draw b then Verdict.draw else Verdict.ongoing

/-- `char::to_digit(10)` for a pressed key. -/
def digitVal (c : Char) : Option Nat :=
  if c.isDigit then some (c.toNat - 48) else none

/-- The acceptance test of `get_human_move` for one pressed key `c` on board
`b`: the key is a digit `d`, and `(d - 1) as usize` (u32 wrapping) is an
in-range empty cell. -/
def validKey (b : Board) (c : Char) : Bool :=
  match digitVal c with
  | some d =>
    let idx := (d + 4294967295) % 4294967296
    decide (idx < 9) && emptyCell b idx
  | none => false

/-- `get_human_move` from main.rs, the key-reading loop unrolled over the
list of pressed character keys: returns the first accepted index, `none` if
the stream ends without one.  The `_player` argument is the source's unused
`_player: char` parameter. -/
def get_human_move (b : Board) ( _player : Char) : List Char → Option Nat
  | [] => none
  | c :: rest =>
    match digitVal c with
    | some d =>
      let idx := (d + 4294967295) % 4294967296
      if idx < 9 && emptyCell b idx then some idx
      else get_human_move b _player rest
    | none => get_human_move b _player rest

/-- `board.iter().enumerate().filter(|(_, &c)| c != 'X' && c != 'O').map(|(i, _)| i)`
from `get_ai_move_random`: the indices of the empty cells, ascending. -/
def emptyIndices (b : Board) : List Nat :=
  ((b.enum.filter (fun p => isFree p.2)).map Prod.fst)

/-- `get_ai_move_random` from main.rs.  `choose(&mut rng)` over the empty
indices is abstracted by the draw `k`: the result is the `k % n`-th empty
index; `none` (empty iterator) is the case where `.unwrap()` panics. -/
def get_ai_move_random (b : Board) (k : Nat) : Option Nat :=
  let es := emptyIndices b
  es.get? (k % es.length)

/-- `cells.iter().filter(|&&c| c == mark).count()` for one line. -/
def countMark (b : Board) (m : Char) : Line → Nat
  | (i, j, k) => (([cellAt b i, cellAt b j, cellAt b k].filter (fun c => c == m)).length)

/-- The `empties` vector of `get_ai_move_blocking` for one line: the
line's indices whose cell is empty. -/
def lineEmpties (b : Board) : Line → List Nat
  | (i, j, k) => ([i, j, k].filter (fun x => emptyCell b x))

/-- The firing condition of `get_ai_move_blocking`'s inner loop:
`count_mark == 2 && !empties.is_empty()`. -/
def twoAndEmpty (b : Board) (m : Char) (l : Line) : Bool :=
  (countMark b m l == 2) && !(lineEmpties b l).isEmpty

/-- The `for line in &wins` loop of `get_ai_move_blocking` for one mark:
return `empties[0]` of the first line with two `m`-cells and an empty
cell. -/
def scanLines (b : Board) (m : Char) : List Line → Option Nat
  | [] => none
  | l :: ls =>
    if twoAndEmpty b m l then some ((lineEmpties b l).headD 0)
    else scanLines b m ls

/-- The `for &mark in &[PLAYER_O, PLAYER_X]` outer loop of
`get_ai_move_blocking`. -/
def blockScan (b : Board) : List Char → Option Nat
  | [] => none
  | m :: ms =>
    match scanLines b m wins with
    | some i => some i
    | none => blockScan b ms

/-- `get_ai_move_blocking` from main.rs: scan for a completable `'O'` line,
then a completable `'X'` line, else fall back to `get_ai_move_random`.
Takes no own-mark input, exactly as in the source (whose `main` computes
`_computer_mark` and discards it). -/
def get_ai_move_blocking (b : Board) (k : Nat) : Option Nat :=
  match blockScan b [PLAYER_O, PLAYER_X] with
  | some i => some i
  | none => get_ai_move_random b k

/-- The per-match mutable state of `main`'s game loop: the board and
`current_player`. -/
structure GameState where
  board : Board
  current : Char
deriving DecidableEq

/-- The state at the top of each outer-loop iteration of `main`:
`board = EMPTY_CELLS`, `current_player = PLAYER_X`. -/
def initState : GameState := GameState.mk EMPTY_CELLS PLAYER_X

/-- One pass of `main`'s inner game loop per supplied move, recording which
mark made each placement: place the mark (`board[pos] = current_player`),
stop on a terminal verdict, otherwise switch players and continue. -/
def runMovers (s : GameState) : List Nat → List Char
  | [] => []
  | p :: ps =>
    match evaluate (s.board.set p s.current) with
    | Verdict.ongoing =>
      s.current :: runMovers (GameState.mk (s.board.set p s.current) (switch_player s.current)) ps
    | _ => [s.current]

/-- The three session counters of `main`:
`score_player_x`, `score_player_o`, `score_draws`. -/
structure Score where
  x : Nat
  o : Nat
  d : Nat
deriving DecidableEq

/-- The score update at the end of a match in `main`: a win increments the
X counter when `winner == PLAYER_X` and the O counter otherwise; a draw
increments the draw counter; an ongoing verdict reaches no update. -/
def recordResult (sc : Score) (v : Verdict) : Score :=
  match v with
  | Verdict.win w _ =>
    if w == PLAYER_X then Score.mk (sc.x + 1) sc.o sc.d
    else Score.mk sc.x (sc.o + 1) sc.d
  | Verdict.draw => Score.mk sc.x sc.o (sc.d + 1)
  | Verdict.ongoing => sc

/-- The board of claim C1/C10's concrete scenario,
`['X','X',_,'O','O',_,_,_,_]`, with the source's digit placeholders in the
empty cells. -/
def exBoard : Board := ['X', 'X', '3', 'O', 'O', '6', '7', '8', '9']

/-- A board on which every line is uniformly `'X'`. -/
def boardAllX : Board := ['X', 'X', 'X', 'X', 'X', 'X', 'X', 'X', 'X']

/-- A full board with no uniformly marked line. -/
def drawBoard : Board := ['X', 'O', 'X', 'X', 'O', 'O', 'O', 'X', 'X']

/-- C9: A fresh match starts with a board in which no cell holds `'X'` or
`'O'` (the `EMPTY_CELLS` digits) and with `'X'` as the active mark, and
this initial state is a constant of the program — independent of any
previous match's outcome and of the selected game mode. -/
theorem C9_fresh_match :
    ((List.range 9).all
      (fun i => !(cellAt EMPTY_CELLS i == PLAYER_X) && !(cellAt EMPTY_CELLS i == PLAYER_O))) = true ∧
    initState.board = EMPTY_CELLS ∧ initState.current = PLAYER_X := by
  decide

theorem checkLines_eq_none_iff (b : Board) (ls : List Line) :
    checkLines b ls = none ↔ ∀ l ∈ ls, lineWin b l = false := by
  induction ls with
  | nil => simp [checkLines]
  | cons a as ih =>
    by_cases h : lineWin b a = true
    · simp [checkLines, h]
    · have hfalse : lineWin b a = false := by simpa using h
      simp [checkLines, h, ih, hfalse]

theorem checkLines_eq_some_iff (b : Board) (ls : List Line) (m : Char) (l : Line) :
    checkLines b ls = some (m, l) ↔
      ∃ n, ls.get? n = some l ∧ lineWin b l = true ∧ m = cellAt b l.1 ∧
        ∀ n', n' < n → ∃ a, ls.get? n' = some a ∧ lineWin b a = false := by
  induction ls with
  | nil => simp [checkLines]
  | cons a as ih =>
    by_cases h : lineWin b a = true
    · rw [checkLines, if_pos h]
      constructor
      · intro he
        have he2 := Option.some.inj he
        rw [Prod.mk.injEq] at he2
        obtain ⟨hm, hl⟩ := he2
        subst hl
        exact ⟨0, by simp, h, hm.symm, fun n' hn' => absurd hn' (Nat.not_lt_zero n')⟩
      · rintro ⟨n, h1, h2, h3, h4⟩
        cases n with
        | zero =>
          simp only [List.get?_cons_zero, Option.some.injEq] at h1
          subst h1
          rw [h3]
        | succ k =>
          obtain ⟨a', ha', hf⟩ := h4 0 (Nat.succ_pos k)
          simp only [List.get?_cons_zero, Option.some.injEq] at ha'
          subst ha'
          rw [h] at hf
          exact absurd hf (by simp)
    · have hfalse : lineWin b a = false := by simpa using h
      rw [checkLines, if_neg h, ih]
      constructor
      · rintro ⟨n, h1, h2, h3, h4⟩
        refine ⟨n + 1, by simpa using h1, h2, h3, ?_⟩
        intro n' hn'
        cases n' with
        | zero => exact ⟨a, by simp, hfalse⟩
        | succ k =>
          obtain ⟨a', ha', hf⟩ := h4 k (Nat.lt_of_succ_lt_succ hn')
          exact ⟨a', by simpa using ha', hf⟩
      · rintro ⟨n, h1, h2, h3, h4⟩
        cases n with
        | zero =>
          simp only [List.get?_cons_zero, Option.some.injEq] at h1
          subst h1
          rw [h2] at hfalse
          exact absurd hfalse (by simp)
        | succ k =>
          refine ⟨k, by simpa using h1, h2, h3, ?_⟩
          intro n' hn'
          obtain ⟨a', ha', hf⟩ := h4 (n' + 1) (Nat.succ_lt_succ hn')
          exact ⟨a', by simpa using ha', hf⟩

/-- C2: `check_winner` scans the 8 fixed lines in the order three rows,
three columns, two diagonals; it returns the mark and line of the first
line whose three cells hold the same non-empty mark (every earlier line in
the fixed order fails the uniformity test), and returns `none` exactly
when no line is uniformly marked. -/
theorem C2_check_winner_first_line (b : Board) :
    (∀ m l, check_winner b = some (m, l) →
       lineWin b l = true ∧ m = cellAt b l.1 ∧
       ∃ n, wins.get? n = some l ∧
         ∀ n', n' < n → ∃ a, wins.get? n' = some a ∧ lineWin b a = false) ∧
    (check_winner b = none ↔ ∀ l ∈ wins, lineWin b l = false) ∧
    wins.length = 8 := by
  refine ⟨?_, checkLines_eq_none_iff b wins, rfl⟩
  intro m l hml
  rw [check_winner, checkLines_eq_some_iff] at hml
  obtain ⟨n, h1, h2, h3, h4⟩ := hml
  exact ⟨h2, h3, n, h1, h4⟩

/-- Witness for C2: on the all-`'X'` board, where several lines qualify
simultaneously, the winner reported by `check_winner` is the first row. -/
theorem C2_witness : lineWin boardAllX (0, 1, 2) = true ∧ 'X' = cellAt boardAllX 0 :=
  ⟨((C2_check_winner_first_line boardAllX).1 'X' (0, 1, 2) (by decide)).1,
   ((C2_check_winner_first_line boardAllX).1 'X' (0, 1, 2) (by decide)).2.1⟩

/-- C3: the per-turn verdict of `main` is `Draw` exactly when the board is
full (`is_draw`, i.e. every cell holds `'X'` or `'O'`) and no line is
uniformly marked; any board on which `check_winner` finds a line is
reported as that win (even if the board is also full); a board that is
neither won nor full yields no terminal verdict. -/
theorem C3_draw_reporting (b : Board) :
    (evaluate b = Verdict.draw ↔ (is_draw b = true ∧ ∀ l ∈ wins, lineWin b l = false)) ∧
    (is_draw b = true ↔ ∀ c ∈ b, (c == PLAYER_X || c == PLAYER_O) = true) ∧
    (∀ m l, check_winner b = some (m, l) → evaluate b = Verdict.win m l) ∧
    ((∀ l ∈ wins, lineWin b l = false) → is_draw b = false → evaluate b = Verdict.ongoing) := by
  have hnone := checkLines_eq_none_iff b wins
  refine ⟨⟨?_, ?_⟩, ?_, ?_, ?_⟩
  · intro hd
    unfold evaluate at hd
    split at hd
    · exact absurd hd (by simp)
    · rename_i hcw
      split at hd
      · rename_i hdr
        exact ⟨hdr, hnone.mp hcw⟩
      · exact absurd hd (by simp)
  · rintro ⟨hfull, hno⟩
    have hcw : check_winner b = none := hnone.mpr hno
    simp [evaluate, hcw, hfull]
  · simp [is_draw, List.all_eq_true]
  · intro m l hcw
    simp [evaluate, hcw]
  · intro hno hnd
    have hcw : check_winner b = none := hnone.mpr hno
    simp [evaluate, hcw, hnd]

/-- Witness for C3: the concrete full, unwon board is reported as a draw. -/
theorem C3_witness : evaluate drawBoard = Verdict.draw :=
  (C3_draw_reporting drawBoard).1.mpr ⟨by decide, by decide⟩

theorem mem_emptyIndices_iff (b : Board) (j : Nat) :
    j ∈ emptyIndices b ↔ ∃ c, b[j]? = some c ∧ isFree c = true := by
  unfold emptyIndices
  constructor
  · intro hj
    obtain ⟨p, hp, hpj⟩ := List.mem_map.mp hj
    obtain ⟨hpe, hpf⟩ := List.mem_filter.mp hp
    have hg := List.mem_enum_iff_getElem?.mp hpe
    subst hpj
    exact ⟨p.2, hg, hpf⟩
  · rintro ⟨c, hc, hf⟩
    exact List.mem_map.mpr
      ⟨(j, c), List.mem_filter.mpr ⟨List.mem_enum_iff_getElem?.mpr hc, hf⟩, rfl⟩

theorem emptyCell_of_mem_emptyIndices (b : Board) (j : Nat) (h : j ∈ emptyIndices b) :
    j < b.length ∧ emptyCell b j = true := by
  obtain ⟨c, hc, hf⟩ := (mem_emptyIndices_iff b j).mp h
  have hlt : j < b.length := by
    by_contra hge
    rw [List.getElem?_eq_none (Nat.le_of_not_lt hge)] at hc
    exact Option.noConfusion hc
  refine ⟨hlt, ?_⟩
  simp [emptyCell, cellAt, List.getD_eq_getElem?_getD, hc, hf]

theorem mem_emptyIndices_of_emptyCell (b : Board) (j : Nat) (hj : j < b.length)
    (he : emptyCell b j = true) : j ∈ emptyIndices b := by
  have hc : b[j]? = some (b[j]) := List.getElem?_eq_getElem hj
  refine (mem_emptyIndices_iff b j).mpr ⟨b[j], hc, ?_⟩
  unfold emptyCell cellAt at he
  rw [List.getD_eq_getElem?_getD, hc] at he
  simpa using he

theorem get_ai_move_random_sound (b : Board) (k j : Nat)
    (h : get_ai_move_random b k = some j) :
    j < b.length ∧ emptyCell b j = true := by
  unfold get_ai_move_random at h
  rw [List.get?_eq_getElem?] at h
  exact emptyCell_of_mem_emptyIndices b j (List.getElem?_mem h)

theorem get_ai_move_random_isSome (b : Board) (k : Nat)
    (hne : emptyIndices b ≠ []) :
    ∃ j, get_ai_move_random b k = some j := by
  unfold get_ai_move_random
  have hlen : 0 < (emptyIndices b).length := List.length_pos.mpr hne
  have hlt : k % (emptyIndices b).length < (emptyIndices b).length := Nat.mod_lt _ hlen
  rw [List.get?_eq_getElem?]
  exact ⟨_, List.getElem?_eq_getElem hlt⟩

theorem emptyIndices_eq_nil_of_full (b : Board) (hf : is_draw b = true) :
    emptyIndices b = [] := by
  by_contra hne
  obtain ⟨j, hj⟩ := List.exists_mem_of_ne_nil _ hne
  obtain ⟨c, hc, hfree⟩ := (mem_emptyIndices_iff b j).mp hj
  have hcb : c ∈ b := List.getElem?_mem hc
  have hall := List.all_eq_true.mp hf c hcb
  simp [isFree, PLAYER_X, PLAYER_O] at hfree
  simp [PLAYER_X, PLAYER_O] at hall
  rcases hall with h | h
  · exact hfree.1 h
  · exact hfree.2 h

theorem headD_mem_of_ne_nil (l : List Nat) (d : Nat) (h : l.isEmpty = false) :
    l.headD d ∈ l := by
  cases l with
  | nil => simp at h
  | cons x xs => simp

theorem lineEmpties_mem (b : Board) (l : Line) (x : Nat) (hx : x ∈ lineEmpties b l) :
    (x = l.1 ∨ x = l.2.1 ∨ x = l.2.2) ∧ emptyCell b x = true := by
  obtain ⟨i, j, k⟩ := l
  unfold lineEmpties at hx
  obtain ⟨hm, hf⟩ := List.mem_filter.mp hx
  simp only [List.mem_cons, List.mem_singleton, List.not_mem_nil, or_false] at hm
  exact ⟨hm, hf⟩

theorem scanLines_sound (b : Board) (m : Char) (ls : List Line) (i : Nat)
    (hls : ∀ l ∈ ls, l.1 < 9 ∧ l.2.1 < 9 ∧ l.2.2 < 9)
    (h : scanLines b m ls = some i) :
    i < 9 ∧ emptyCell b i = true := by
  induction ls with
  | nil => exact absurd h (by simp [scanLines])
  | cons a as ih =>
    rw [scanLines] at h
    by_cases hc : twoAndEmpty b m a = true
    · rw [if_pos hc] at h
      have hne : (lineEmpties b a).isEmpty = false := by
        unfold twoAndEmpty at hc
        have h2 := ((Bool.and_eq_true _ _).mp hc).2
        simpa using h2
      have hmem : (lineEmpties b a).headD 0 ∈ lineEmpties b a :=
        headD_mem_of_ne_nil _ 0 hne
      obtain ⟨hor, hfree⟩ := lineEmpties_mem b a _ hmem
      have hi : (lineEmpties b a).headD 0 = i := Option.some.inj h
      subst hi
      refine ⟨?_, hfree⟩
      obtain ⟨h1, h2, h3⟩ := hls a (List.mem_cons_self _ _)
      rcases hor with h' | h' | h' <;> rw [h'] <;> assumption
    · rw [if_neg hc] at h
      exact ih (fun l hl => hls l (List.mem_cons_of_mem a hl)) h

theorem scanLines_isSome_of_exists (b : Board) (m : Char) (ls : List Line)
    (h : ∃ l ∈ ls, twoAndEmpty b m l = true) :
    (scanLines b m ls).isSome = true := by
  induction ls with
  | nil => simp at h
  | cons a as ih =>
    rw [scanLines]
    by_cases hc : twoAndEmpty b m a = true
    · rw [if_pos hc]; rfl
    · rw [if_neg hc]
      apply ih
      obtain ⟨l, hl, hlt⟩ := h
      rcases List.mem_cons.mp hl with rfl | hmem
      · exact absurd hlt hc
      · exact ⟨l, hmem, hlt⟩

theorem emptyCell_false_of_full (b : Board) (hb : b.length = 9)
    (hf : is_draw b = true) (i : Nat) (hi : i < 9) :
    emptyCell b i = false := by
  have hi' : i < b.length := by omega
  have hmem : b[i] ∈ b := List.getElem_mem hi'
  have hall := List.all_eq_true.mp hf _ hmem
  unfold emptyCell cellAt isFree
  rw [List.getD_eq_getElem?_getD, List.getElem?_eq_getElem hi']
  simp only [Option.getD_some]
  rcases (Bool.or_eq_true _ _).mp hall with h | h <;> simp [h]

theorem scanLines_none_of_full (b : Board) (m : Char) (hb : b.length = 9)
    (hf : is_draw b = true) (ls : List Line)
    (hls : ∀ l ∈ ls, l.1 < 9 ∧ l.2.1 < 9 ∧ l.2.2 < 9) :
    scanLines b m ls = none := by
  induction ls with
  | nil => rfl
  | cons a as ih =>
    have hemp : lineEmpties b a = [] := by
      obtain ⟨i, j, k⟩ := a
      obtain ⟨h1, h2, h3⟩ := hls (i, j, k) (List.mem_cons_self _ _)
      simp only at h1 h2 h3
      unfold lineEmpties
      rw [List.filter_eq_nil_iff]
      intro x hx
      simp only [List.mem_cons, List.mem_singleton, List.not_mem_nil, or_false] at hx
      rcases hx with rfl | rfl | rfl <;>
        simp [emptyCell_false_of_full b hb hf _ (by assumption)]
    have hcond : twoAndEmpty b m a = false := by
      unfold twoAndEmpty
      rw [hemp]
      simp
    rw [scanLines, hcond]
    simp only [Bool.false_eq_true, if_false]
    exact ih (fun l hl => hls l (List.mem_cons_of_mem a hl))

theorem blockScan_sound (b : Board) (ms : List Char) (i : Nat)
    (h : blockScan b ms = some i) :
    i < 9 ∧ emptyCell b i = true := by
  induction ms with
  | nil => exact absurd h (by simp [blockScan])
  | cons m ms ih =>
    rw [blockScan] at h
    split at h
    · rename_i j hs
      obtain rfl := Option.some.inj h
      exact scanLines_sound b m wins j (by decide) hs
    · rename_i hs
      exact ih h

theorem get_human_move_accepts (b : Board) (p : Char) (evs : List Char) (idx : Nat)
    (h : get_human_move b p evs = some idx) :
    idx < 9 ∧ emptyCell b idx = true := by
  induction evs with
  | nil => exact absurd h (by simp [get_human_move])
  | cons c rest ih =>
    cases hd : digitVal c with
    | none =>
      simp only [get_human_move, hd] at h
      exact ih h
    | some d =>
      simp only [get_human_move, hd] at h
      split at h
      · rename_i hcond
        obtain rfl := Option.some.inj h
        simpa using hcond
      · exact ih h

theorem get_ai_move_blocking_sound (b : Board) (k pos : Nat) (hb : b.length = 9)
    (h : get_ai_move_blocking b k = some pos) :
    pos < 9 ∧ emptyCell b pos = true := by
  unfold get_ai_move_blocking at h
  split at h
  · rename_i j hs
    obtain rfl := Option.some.inj h
    exact blockScan_sound b _ j hs
  · have := get_ai_move_random_sound b k pos h
    exact ⟨by omega, this.2⟩

/-- C4: a human move is accepted only when the pressed key designates an
index in 0..8 whose cell is neither `'X'` nor `'O'`; a key failing that
test is skipped — the retry consumes the key and continues on the very
same board (the function never mutates anything and there is no bound on
the number of retries, the recursion simply continues over the remaining
keys); the result is independent of the active mark, which the function
receives but never uses. -/
theorem C4_input_validation (b : Board) (p : Char) (evs : List Char) (idx : Nat) :
    (get_human_move b p evs = some idx → idx < 9 ∧ emptyCell b idx = true) ∧
    (∀ c rest, validKey b c = false →
       get_human_move b p (c :: rest) = get_human_move b p rest) ∧
    (∀ q, get_human_move b p evs = get_human_move b q evs) := by
  refine ⟨get_human_move_accepts b p evs idx, ?_, ?_⟩
  · intro c rest hv
    cases hd : digitVal c with
    | none => rw [get_human_move, hd]
    | some d =>
      have hv2 : (decide ((d + 4294967295) % 4294967296 < 9) &&
          emptyCell b ((d + 4294967295) % 4294967296)) = false := by
        simpa [validKey, hd] using hv
      simp [get_human_move, hd, hv2]
  · intro q
    induction evs with
    | nil => rfl
    | cons c rest ih =>
      cases hd : digitVal c with
      | none => simp [get_human_move, hd, ih]
      | some d => simp [get_human_move, hd, ih]

/-- Witness for C4: on the fresh board, key `'1'` is accepted as index 0,
and the invalid key `'a'` is skipped with the board left unchanged. -/
theorem C4_witness :
    (0 < 9 ∧ emptyCell EMPTY_CELLS 0 = true) ∧
    get_human_move EMPTY_CELLS 'X' (['a', '1']) = get_human_move EMPTY_CELLS 'X' ['1'] :=
  ⟨(C4_input_validation EMPTY_CELLS 'X' ['1'] 0).1 (by decide),
   (C4_input_validation EMPTY_CELLS 'X' ['1'] 0).2.1 'a' ['1'] (by decide)⟩

/-- C7: on a board with at least one empty cell, both strategies return an
index in 0..8 whose cell is empty; on a full board the random selection's
iterator is empty, so its `unwrap` has nothing to choose (`none`, the fatal
assertion), and the blocking strategy, whose line scan cannot fire either,
falls into the same fatal fallback — unreachable whenever the
precondition holds. -/
theorem C7_strategy_safety (b : Board) (k : Nat) (hb : b.length = 9) :
    ((∃ i, i < 9 ∧ emptyCell b i = true) →
       (∃ j, j < 9 ∧ emptyCell b j = true ∧ get_ai_move_random b k = some j) ∧
       (∃ j, j < 9 ∧ emptyCell b j = true ∧ get_ai_move_blocking b k = some j)) ∧
    (is_draw b = true →
       get_ai_move_random b k = none ∧ get_ai_move_blocking b k = none) := by
  constructor
  · rintro ⟨i, hi9, hie⟩
    have hne : emptyIndices b ≠ [] := by
      intro hnil
      have hmem := mem_emptyIndices_of_emptyCell b i (by omega) hie
      rw [hnil] at hmem
      exact List.not_mem_nil i hmem
    obtain ⟨j, hj⟩ := get_ai_move_random_isSome b k hne
    obtain ⟨hjl, hje⟩ := get_ai_move_random_sound b k j hj
    refine ⟨⟨j, by omega, hje, hj⟩, ?_⟩
    rcases hbs : blockScan b [PLAYER_O, PLAYER_X] with _ | j2
    · refine ⟨j, by omega, hje, ?_⟩
      simp [get_ai_move_blocking, hbs, hj]
    · obtain ⟨hj2, hj2e⟩ := blockScan_sound b _ j2 hbs
      refine ⟨j2, hj2, hj2e, ?_⟩
      simp [get_ai_move_blocking, hbs]
  · intro hf
    have hrand : get_ai_move_random b k = none := by
      simp [get_ai_move_random, emptyIndices_eq_nil_of_full b hf]
    have hO := scanLines_none_of_full b PLAYER_O hb hf wins (by decide)
    have hX := scanLines_none_of_full b PLAYER_X hb hf wins (by decide)
    refine ⟨hrand, ?_⟩
    simp [get_ai_move_blocking, blockScan, hO, hX, hrand]

/-- Witness for C7: on the concrete full board, both strategies hit the
empty-iterator case. -/
theorem C7_witness :
    get_ai_move_random drawBoard 0 = none ∧ get_ai_move_blocking drawBoard 0 = none :=
  (C7_strategy_safety drawBoard 0 (by decide)).2 (by decide)

/-- C6: every board mutation of a match writes one mark into a previously
empty cell: any move position supplied by the human-input reader or by
either strategy is an empty in-range cell, the write
`board[pos] = current_player` puts the mark there, leaves every other cell
unchanged, and in particular never clears or overwrites a cell already
holding `'X'` or `'O'`. -/
theorem C6_append_only (b : Board) (cur : Char) (pos : Nat) (hb : b.length = 9)
    (hsrc : (∃ p evs, get_human_move b p evs = some pos) ∨
            (∃ k, get_ai_move_random b k = some pos) ∨
            (∃ k, get_ai_move_blocking b k = some pos)) :
    emptyCell b pos = true ∧ pos < 9 ∧
    cellAt (b.set pos cur) pos = cur ∧
    (∀ i, i ≠ pos → cellAt (b.set pos cur) i = cellAt b i) ∧
    (∀ i, (cellAt b i == PLAYER_X || cellAt b i == PLAYER_O) = true →
       cellAt (b.set pos cur) i = cellAt b i) := by
  have hpe : pos < 9 ∧ emptyCell b pos = true := by
    rcases hsrc with ⟨p, evs, h⟩ | ⟨k, h⟩ | ⟨k, h⟩
    · exact get_human_move_accepts b p evs pos h
    · have hs := get_ai_move_random_sound b k pos h
      exact ⟨by omega, hs.2⟩
    · exact get_ai_move_blocking_sound b k pos hb h
  have hframe : ∀ i, i ≠ pos → cellAt (b.set pos cur) i = cellAt b i := by
    intro i hi
    unfold cellAt
    rw [List.getD_eq_getElem?_getD, List.getD_eq_getElem?_getD,
        List.getElem?_set_ne (Ne.symm hi)]
  refine ⟨hpe.2, hpe.1, ?_, hframe, ?_⟩
  · unfold cellAt
    rw [List.getD_eq_getElem?_getD, List.getElem?_set_self (by omega)]
    rfl
  · intro i hmark
    refine hframe i ?_
    intro he
    subst he
    have hfree := hpe.2
    simp [emptyCell, isFree, PLAYER_X, PLAYER_O] at hfree
    simp [PLAYER_X, PLAYER_O] at hmark
    rcases hmark with h | h
    · exact hfree.1 h
    · exact hfree.2 h

/-- Witness for C6: the first human move on a fresh board marks cell 0. -/
theorem C6_witness :
    emptyCell EMPTY_CELLS 0 = true ∧ 0 < 9 ∧ cellAt (EMPTY_CELLS.set 0 'X') 0 = 'X' :=
  ⟨(C6_append_only EMPTY_CELLS 'X' 0 (by decide) (Or.inl ⟨'X', ['1'], by decide⟩)).1,
   (C6_append_only EMPTY_CELLS 'X' 0 (by decide) (Or.inl ⟨'X', ['1'], by decide⟩)).2.1,
   (C6_append_only EMPTY_CELLS 'X' 0 (by decide) (Or.inl ⟨'X', ['1'], by decide⟩)).2.2.1⟩

/-- Counterexample for C1: the claim quantifies over every own mark, but
`get_ai_move_blocking` receives no own mark.  Instantiated at own mark
`'X'` on the claim's own board `['X','X',_,'O','O',_,_,_,_]`, step 1 (take
the own win) designates index 2 — line (0,1,2) holds two `'X'` and its
third cell is empty — yet the code returns 5, completing the `'O'` line
instead, so the claimed step-1-first behavior fails for own mark `'X'`. -/
theorem C1_counterexample :
    scanLines exBoard PLAYER_X wins = some 2 ∧
    twoAndEmpty exBoard PLAYER_X (0, 1, 2) = true ∧
    get_ai_move_blocking exBoard 0 = some 5 ∧ (5 : Nat) ≠ 2 := by
  decide

/-- C1 (amended): the blocking strategy ignores any own mark and always
scans for a completable `'O'` line first, so precisely when the own mark is
`'O'` (the computer moving second) the claimed priority holds: whenever
some line holds exactly two `'O'` and an empty third cell, the returned
move is the `'O'`-scan's first-match result, before any blocking of `'X'`
is considered. -/
theorem C1_blocking_own_win_as_O (b : Board) (k : Nat)
    (h : ∃ l ∈ wins, twoAndEmpty b PLAYER_O l = true) :
    get_ai_move_blocking b k = scanLines b PLAYER_O wins ∧
    (scanLines b PLAYER_O wins).isSome = true := by
  have hs := scanLines_isSome_of_exists b PLAYER_O wins h
  obtain ⟨i, hi⟩ := Option.isSome_iff_exists.mp hs
  refine ⟨?_, hs⟩
  simp [get_ai_move_blocking, blockScan, hi]

/-- Witness for C1 on the claim's own board with own mark `'O'`: the
strategy returns index 5, completing O's row (3,4,5). -/
theorem C1_witness : get_ai_move_blocking exBoard 0 = some 5 := by
  have h := C1_blocking_own_win_as_O exBoard 0 ⟨(3, 4, 5), by decide, by decide⟩
  rw [h.1]
  decide

/-- C10: the blocking strategy's scan always examines lines completable by
`'O'` before lines completable by `'X'`: whenever the `'O'`-scan fires with
index `i`, the strategy returns `i` even if the `'X'`-scan would fire with
a different index `j` — so a computer playing as `'X'` blocks O's
two-in-a-row in preference to completing its own winning line. -/
theorem C10_blocks_O_before_own_X_win (b : Board) (k : Nat) (i j : Nat)
    (hO : scanLines b PLAYER_O wins = some i)
    (hX : scanLines b PLAYER_X wins = some j) :
    get_ai_move_blocking b k = some i ∧
    (j ≠ i → get_ai_move_blocking b k ≠ some j) := by
  have hmain : get_ai_move_blocking b k = some i := by
    simp [get_ai_move_blocking, blockScan, hO]
  refine ⟨hmain, ?_⟩
  intro hne hcontra
  rw [hmain] at hcontra
  exact hne (Option.some.inj hcontra).symm

/-- Witness for C10: on `['X','X',_,'O','O',_,_,_,_]` the O-scan yields 5,
the X-scan yields 2, and the strategy returns 5, not 2. -/
theorem C10_witness :
    get_ai_move_blocking exBoard 1 = some 5 ∧
    ((2 : Nat) ≠ 5 → get_ai_move_blocking exBoard 1 ≠ some 2) :=
  C10_blocks_O_before_own_X_win exBoard 1 5 2 (by decide) (by decide)

theorem switch_player_involutive (c : Char) (h : c = PLAYER_X ∨ c = PLAYER_O) :
    switch_player (switch_player c) = c := by
  rcases h with rfl | rfl <;> decide

theorem switch_player_mem (c : Char) (h : c = PLAYER_X ∨ c = PLAYER_O) :
    switch_player c = PLAYER_X ∨ switch_player c = PLAYER_O := by
  rcases h with rfl | rfl <;> decide

theorem runMovers_getD (ps : List Nat) (s : GameState)
    (hcur : s.current = PLAYER_X ∨ s.current = PLAYER_O) :
    ∀ k, k < (runMovers s ps).length →
      (runMovers s ps).getD k ' ' =
        (if k % 2 = 0 then s.current else switch_player s.current) := by
  induction ps generalizing s with
  | nil => intro k hk; simp [runMovers] at hk
  | cons p ps ih =>
    intro k hk
    cases hv : evaluate (s.board.set p s.current) with
    | ongoing =>
      simp only [runMovers, hv] at hk ⊢
      cases k with
      | zero => simp
      | succ k2 =>
        have hk2 : k2 <
            (runMovers (GameState.mk (s.board.set p s.current) (switch_player s.current)) ps).length := by
          simp only [List.length_cons] at hk
          omega
        have hrec := ih (GameState.mk (s.board.set p s.current) (switch_player s.current))
          (switch_player_mem s.current hcur) k2 hk2
        simp only [List.getD_cons_succ]
        rw [hrec]
        simp only
        rw [switch_player_involutive s.current hcur]
        rcases Nat.mod_two_eq_zero_or_one k2 with h2 | h2
        · have h3 : (k2 + 1) % 2 = 1 := by omega
          simp [h2, h3]
        · have h3 : (k2 + 1) % 2 = 0 := by omega
          simp [h2, h3]
    | win m l =>
      simp only [runMovers, hv] at hk ⊢
      have hk0 : k = 0 := by
        simp only [List.length_cons, List.length_nil] at hk
        omega
      subst hk0
      simp
    | draw =>
      simp only [runMovers, hv] at hk ⊢
      have hk0 : k = 0 := by
        simp only [List.length_cons, List.length_nil] at hk
        omega
      subst hk0
      simp

/-- C5: in every match the mover of the first placement is `'X'` and the
movers of the successful placements strictly alternate
`'X'`, `'O'`, `'X'`, … ; in particular two consecutive placements are never
made by the same mark. -/
theorem C5_strict_alternation (ps : List Nat) (k : Nat)
    (hk : k < (runMovers initState ps).length) :
    (runMovers initState ps).getD k ' ' = (if k % 2 = 0 then PLAYER_X else PLAYER_O) ∧
    (k + 1 < (runMovers initState ps).length →
       (runMovers initState ps).getD (k + 1) ' ' ≠ (runMovers initState ps).getD k ' ') := by
  have hinit : initState.current = PLAYER_X := rfl
  have hsw : switch_player PLAYER_X = PLAYER_O := by decide
  have h1 := runMovers_getD ps initState (Or.inl rfl) k hk
  rw [hinit, hsw] at h1
  refine ⟨h1, ?_⟩
  intro hk1
  have h2 := runMovers_getD ps initState (Or.inl rfl) (k + 1) hk1
  rw [hinit, hsw] at h2
  rw [h1, h2]
  rcases Nat.mod_two_eq_zero_or_one k with h | h
  · have h3 : (k + 1) % 2 = 1 := by omega
    simp only [h, h3]
    decide
  · have h3 : (k + 1) % 2 = 0 := by omega
    simp only [h, h3]
    decide

/-- Witness for C5: in the concrete game X→0, O→3, X→1, O→4, X→2 the
first mover is `'X'`. -/
theorem C5_witness :
    (runMovers initState [0, 3, 1, 4, 2]).getD 0 ' ' =
      (if 0 % 2 = 0 then PLAYER_X else PLAYER_O) :=
  (C5_strict_alternation [0, 3, 1, 4, 2] 0 (by decide)).1

theorem recordResult_le (sc : Score) (v : Verdict) :
    sc.x ≤ (recordResult sc v).x ∧ sc.o ≤ (recordResult sc v).o ∧
      sc.d ≤ (recordResult sc v).d := by
  cases v with
  | win w l =>
    simp only [recordResult]
    by_cases hw : (w == PLAYER_X) = true
    · rw [if_pos hw]
      exact ⟨Nat.le_succ _, Nat.le_refl _, Nat.le_refl _⟩
    · rw [if_neg hw]
      exact ⟨Nat.le_refl _, Nat.le_succ _, Nat.le_refl _⟩
  | draw => exact ⟨Nat.le_refl _, Nat.le_refl _, Nat.le_succ _⟩
  | ongoing => exact ⟨Nat.le_refl _, Nat.le_refl _, Nat.le_refl _⟩

theorem foldl_recordResult_le (vs : List Verdict) (sc : Score) :
    sc.x ≤ (vs.foldl recordResult sc).x ∧ sc.o ≤ (vs.foldl recordResult sc).o ∧
      sc.d ≤ (vs.foldl recordResult sc).d := by
  induction vs generalizing sc with
  | nil => exact ⟨Nat.le_refl _, Nat.le_refl _, Nat.le_refl _⟩
  | cons v vs ih =>
    simp only [List.foldl_cons]
    obtain ⟨h1, h2, h3⟩ := recordResult_le sc v
    obtain ⟨g1, g2, g3⟩ := ih (recordResult sc v)
    exact ⟨Nat.le_trans h1 g1, Nat.le_trans h2 g2, Nat.le_trans h3 g3⟩

/-- C8: a win by `'X'` increments exactly the X counter, a win by `'O'`
exactly the O counter, a draw exactly the draw counter; and over any
sequence of recorded match results each counter is monotone
non-decreasing (nothing ever decrements one). -/
theorem C8_score_counters (sc : Score) (vs : List Verdict) (l : Line) :
    recordResult sc (Verdict.win PLAYER_X l) = Score.mk (sc.x + 1) sc.o sc.d ∧
    recordResult sc (Verdict.win PLAYER_O l) = Score.mk sc.x (sc.o + 1) sc.d ∧
    recordResult sc Verdict.draw = Score.mk sc.x sc.o (sc.d + 1) ∧
    sc.x ≤ (vs.foldl recordResult sc).x ∧
    sc.o ≤ (vs.foldl recordResult sc).o ∧
    sc.d ≤ (vs.foldl recordResult sc).d := by
  obtain ⟨g1, g2, g3⟩ := foldl_recordResult_le vs sc
  exact ⟨rfl, rfl, rfl, g1, g2, g3⟩
